import Mathlib

/-!
# Verification of the dependency-resolution core (`insights/core/dr.py`)

This file gives a shallow embedding of the data model and operations of the
dependency-resolution and execution runtime, and proves (or refutes) the
frozen claims about it.

Modelling conventions:
* A component is an opaque handle compared by identity; we model handles as
  natural numbers (`Comp`).
* Python `None`, numbers and lists of values are modelled by the inductive
  type `Val`.
* Python dictionaries whose iteration/insertion order matters are modelled
  as association lists; sets whose order never matters are modelled as
  `Finset`.
* Fallible operations (`raise`) are modelled with `Except`.
* Process-wide tables (`IGNORE`, `DELEGATES`, ...) are passed explicitly.
-/

/-- Component handle (identity by reference in the source). -/
abbrev Comp := Nat

/-- One entry of a `requires` spec: the source distinguishes a singleton
dependency from an any-of group by `isinstance(r, list)`. -/
inductive Req where
  | one (c : Comp)
  | anyOf (g : List Comp)
deriving DecidableEq

/-- Python values a component can produce or receive: `None`, integers and
lists (lists are needed because the spec talks about passing a group value
as a list). -/
inductive Val where
  | none
  | int (n : Int)
  | list (vs : List Val)

/-- Decidable equality for `Except` (not provided by the library here);
used only to let witnesses evaluate concrete results with `decide`. -/
instance instDecEqExcept {ε α : Type} [DecidableEq ε] [DecidableEq α] :
    DecidableEq (Except ε α) := fun a b =>
  match a, b with
  | .ok x, .ok y =>
    if h : x = y then .isTrue (by rw [h]) else .isFalse (fun hc => by cases hc; exact h rfl)
  | .error x, .error y =>
    if h : x = y then .isTrue (by rw [h]) else .isFalse (fun hc => by cases hc; exact h rfl)
  | .ok _, .error _ => .isFalse (fun hc => by cases hc)
  | .error _, .ok _ => .isFalse (fun hc => by cases hc)

/-- `split_requirements(requires)`: partition a requirement spec into the
singletons (`req_all`) and the any-of groups (`req_any`), preserving
declared order. -/
def split_requirements : List Req → List Comp × List (List Comp)
  | [] => ([], [])
  | .one c :: rs => ((split_requirements rs).1.cons c, (split_requirements rs).2)
  | .anyOf g :: rs => ((split_requirements rs).1, (split_requirements rs).2.cons g)

/-- The result pair of `get_missing_requirements`:
(unsatisfied singletons, unsatisfied any-of groups). -/
abbrev MissingPair := List Comp × List (List Comp)

/-- The broker: result container of a run.  `instances` is the mapping of
produced values (a Python dict, modelled as an association list in
insertion order), `missing_requirements` and `exceptions` record failures,
and `fired` logs the components for which `fire_observers` was invoked by
the run loop (observer dispatch itself is modelled separately).
`exec_times` (wall clock) and `tracebacks` are not modelled. -/
structure Broker where
  instances : List (Comp × Val)
  missing_requirements : List (Comp × MissingPair)
  exceptions : List (Comp × List Nat)
  fired : List Comp

/-- A fresh broker (`Broker()` with no seed). -/
def Broker.empty : Broker := ⟨[], [], [], []⟩

/-- `__contains__`: membership in `instances`. -/
def Broker.contains (b : Broker) (c : Comp) : Bool :=
  (b.instances.lookup c).isSome

/-- `keys()`: the keys of `instances`. -/
def Broker.keys (b : Broker) : List Comp :=
  b.instances.map Prod.fst

/-- `__setitem__`: raise `KeyError` when the key is already present,
otherwise insert.  It touches nothing but `instances` (in particular it
does not fire observers). -/
def Broker.setitem (b : Broker) (c : Comp) (v : Val) : Except String Broker :=
  if b.contains c then .error "Already exists in broker with key"
  else .ok { b with instances := b.instances ++ [(c, v)] }

/-- `__delitem__`: delete the key if present; the source returns silently
when the key is absent (no `KeyError` is ever raised, hence the `Except`
result is always `.ok`). -/
def Broker.delitem (b : Broker) (c : Comp) : Except String Broker :=
  if b.contains c then
    .ok { b with instances := b.instances.eraseP (fun p => p.1 == c) }
  else .ok b

/-- `__getitem__`: return the instance or raise `KeyError`. -/
def Broker.getitem (b : Broker) (c : Comp) : Except String Val :=
  match b.instances.lookup c with
  | some v => .ok v
  | none => .error "Unknown component"

/-- `get(component, default)`: `__getitem__` with the `KeyError` caught. -/
def Broker.get (b : Broker) (c : Comp) (default : Val) : Val :=
  match b.getitem c with
  | .ok v => v
  | .error _ => default

/-- The process-wide `IGNORE` table (`defaultdict(set)`), passed
explicitly: `IGNORE.get(func, [])` becomes `(ignore.lookup func).getD []`. -/
abbrev IgnoreMap := List (Comp × List Comp)

/-- `get_missing_requirements(func, requires, d)`.  `.error ()` models the
raised `SkipComponent`; `.ok none` models returning `None`; `.ok (some p)`
models returning the pair `p`. -/
def get_missing_requirements (ignore : IgnoreMap) (func : Comp) (requires : List Req)
    (d : Broker) : Except Unit (Option MissingPair) :=
  if requires.isEmpty then .ok none
  else if ((ignore.lookup func).getD []).any (fun i => d.contains i) then .error ()
  else
    let p := split_requirements requires
    let dk := d.keys
    let req_all := p.1.filter (fun r => !(dk.contains r))
    let req_any := p.2.filter (fun g => g.all (fun x => !(dk.contains x)))
    if req_all.isEmpty && req_any.isEmpty then .ok none
    else .ok (some (req_all, req_any))

/-- Failure modes of an executor: a propagated `SkipComponent` or a raised
`MissingRequirements`. -/
inductive ExecErr where
  | skipComponent
  | missingRequirements (r : MissingPair)
deriving DecidableEq

/-- `default_executor(func, broker, requires, optional)`.  The component
`func` is identified by its handle (used as the `IGNORE` key) and its
behaviour is the function `f` from the received positional-argument list to
its return value.  The source builds `args` by `extend`ing with the members
of an any-of group and `append`ing a singleton, then extends with
`optional`, then replaces every element by `broker.get(a)`. -/
def default_executor (ignore : IgnoreMap) (func : Comp) (f : List Val → Val)
    (broker : Broker) (requires : List Req) (optional : List Comp) :
    Except ExecErr Val :=
  match get_missing_requirements ignore func requires broker with
  | .error () => .error .skipComponent
  | .ok (some mr) => .error (.missingRequirements mr)
  | .ok none =>
    let args : List Comp :=
      requires.foldl (fun acc r =>
        match r with
        | .anyOf g => acc ++ g
        | .one c => acc ++ [c]) []
    let args := args ++ optional
    .ok (f (args.map (fun a => broker.get a Val.none)))

/-- Modelled from the spec (refinement comparison only, NOT from the
source): the argument-building rule as the spec words it — "for an any-of
group, append the group value as a list of broker lookups in declared
order". -/
def default_executor_specModel (ignore : IgnoreMap) (func : Comp) (f : List Val → Val)
    (broker : Broker) (requires : List Req) (optional : List Comp) :
    Except ExecErr Val :=
  match get_missing_requirements ignore func requires broker with
  | .error () => .error .skipComponent
  | .ok (some mr) => .error (.missingRequirements mr)
  | .ok none =>
    let argVals : List Val :=
      requires.map (fun r =>
        match r with
        | .one c => broker.get c Val.none
        | .anyOf g => Val.list (g.map (fun x => broker.get x Val.none)))
      ++ optional.map (fun o => broker.get o Val.none)
    .ok (f argVals)

/-- The flattened component list the default executor looks up:
group members and singletons in declared order. -/
def flatten_requires (requires : List Req) : List Comp :=
  requires.flatMap (fun r =>
    match r with
    | Req.one c => [c]
    | Req.anyOf g => g)

/-- A registered delegate: the component handle, its declared requirement
spec and optional list, and the group and type tags filled in during
decoration (tags are opaque identity-compared values, modelled as `Nat`). -/
structure Delegate where
  component : Comp
  requires : List Req
  optional : List Comp
  group : Nat
  type : Nat
deriving DecidableEq

/-- `Delegate.__init__`: the derived dependency set — the singletons, the
members of every any-of group, and the optionals (`_all | _any | _optional`,
with empty sets when `requires` is empty). -/
def Delegate.dependencies (dl : Delegate) : Finset Comp :=
  let p :=
    if dl.requires.isEmpty then (∅, ∅)
    else ((split_requirements dl.requires).1.toFinset,
          ((split_requirements dl.requires).2.flatten).toFinset)
  p.1 ∪ p.2 ∪ dl.optional.toFinset

/-- The process-wide registry indices touched by `Delegate.__init__` and
`register_component`.  `components_keys g` is the key set of the inner
dict `COMPONENTS[g]` (a `defaultdict`, whose keys appear when touched) and
`components g c` its value `COMPONENTS[g][c]`.  `MODULE_NAMES`,
`BASE_MODULE_NAMES` and the textual name cache are pure diagnostics and
are not modelled (no claim mentions them). -/
structure Registry where
  dependencies : Comp → Finset Comp
  dependents : Comp → Finset Comp
  delegates : Comp → Option Delegate
  components_keys : Nat → Finset Comp
  components : Nat → Comp → Finset Comp
  components_by_type : Nat → Finset Comp

/-- The registry at process start: every index empty. -/
def Registry.empty : Registry :=
  { dependencies := fun _ => ∅
    dependents := fun _ => ∅
    delegates := fun _ => none
    components_keys := fun _ => ∅
    components := fun _ _ => ∅
    components_by_type := fun _ => ∅ }

/-- One registration: `Delegate.__init__` (whose `add_dependent` loop adds
the component to `DEPENDENTS[d]` for every derived dependency `d`)
immediately followed by `register_component(delegate)`, which OVERWRITES
`DEPENDENCIES[component]`, unions the dependency set into
`COMPONENTS[group][component]`, adds the component to
`COMPONENTS_BY_TYPE[type]` and installs the delegate (last writer wins). -/
def register_component (r : Registry) (dl : Delegate) : Registry :=
  { dependencies := Function.update r.dependencies dl.component dl.dependencies
    dependents := fun d =>
      if d ∈ dl.dependencies then insert dl.component (r.dependents d) else r.dependents d
    delegates := Function.update r.delegates dl.component (some dl)
    components_keys := fun g =>
      if g = dl.group then insert dl.component (r.components_keys g) else r.components_keys g
    components := fun g x =>
      if g = dl.group ∧ x = dl.component then r.components g x ∪ dl.dependencies
      else r.components g x
    components_by_type := fun t =>
      if t = dl.type then insert dl.component (r.components_by_type t)
      else r.components_by_type t }

/-- The forward half of the mirror invariant. -/
def Registry.mirrorForward (r : Registry) : Prop :=
  ∀ c d, d ∈ r.dependencies c → c ∈ r.dependents d

/-- One observer invocation as performed by `fire_observers`: the observer,
the two positional arguments `(component, self)` it is called with, and
whether it raised (such an exception is caught and logged). -/
structure ObsCall where
  observer : Nat
  component : Comp
  broker : Nat
  raised : Bool
deriving DecidableEq

/-- `Broker.fire_observers(component)`.  `typeOf` models
`get_component_type` (`none` when the component has no registered type);
`obsTyped t` models `self.observers.get(t, set())`, `obsAny` models
`self.observers[ANY_TYPE]`, and the loop body `try: o(component, self)
except: log` is modelled by recording each invocation together with
whether it raised — the exception is swallowed, so every observer of the
union is invoked and the function is total. -/
def fire_observers (typeOf : Comp → Option Nat) (obsTyped : Nat → List Nat)
    (obsAny : List Nat) (raises : Nat → Comp → Bool) (selfId : Nat) (c : Comp) :
    List ObsCall :=
  match typeOf c with
  | none => []
  | some t => ((obsTyped t).union obsAny).map (fun o => ⟨o, c, selfId, raises o c⟩)

/-- A dependency graph as passed to `run`/`run_order`: a dict mapping each
component to its set of direct dependencies (association list, dependency
sets as lists). -/
abbrev Graph := List (Comp × List Comp)

/-- The components of a graph: its key set. -/
def graphKeys (g : Graph) : List Comp := g.map Prod.fst

/-- An entry is ready when every one of its dependencies lies outside the
given key set. -/
def depsSat (keys : List Comp) (p : Comp × List Comp) : Bool :=
  p.2.all (fun d => !(keys.contains d))

/-- The diagnostic of the topological sort on a cyclic input. -/
def cycleMsg : String := "Cyclic dependencies exist among these items"

/-- Modelled from the spec: `toposort_flatten` comes from the vendored
`insights.contrib.toposort`, whose code is not part of this source tree;
the spec says `run_order(components)` "returns a linear ordering in which
every component appears after all of its dependencies it itself depends on
within the input graph" and that cycles are rejected with a diagnostic.
Kahn-style rounds: emit every entry whose dependencies all lie outside the
remaining keys; fail when entries remain but none is ready.  `fuel` bounds
the recursion; each successful round strictly shrinks the remainder, so
`g.length` suffices. -/
def toposortRounds : Nat → Graph → Except String (List Comp)
  | _, [] => .ok []
  | 0, _ :: _ => .error cycleMsg
  | fuel + 1, p :: rem =>
    if ((p :: rem).filter (depsSat (graphKeys (p :: rem)))).isEmpty then .error cycleMsg
    else
      match toposortRounds fuel
          ((p :: rem).filter (fun q => !(depsSat (graphKeys (p :: rem)) q))) with
      | .ok tail =>
        .ok (((p :: rem).filter (depsSat (graphKeys (p :: rem)))).map Prod.fst ++ tail)
      | .error e => .error e

/-- Modelled from the spec: the flattened topological sort. -/
def toposort_flatten (g : Graph) : Except String (List Comp) :=
  toposortRounds g.length g

/-- `run_order(components, broker)`: returns `toposort_flatten(components)`
(the broker argument is unused in the source). -/
def run_order (components : Graph) (broker : Broker) : Except String (List Comp) :=
  toposort_flatten components

/-- The dependency-edge relation of a graph: `c`'s entry lists `d`. -/
def edgeIn (g : Graph) (c d : Comp) : Prop :=
  ∃ p ∈ g, p.1 = c ∧ d ∈ p.2

/-- A cyclic graph: some component reaches itself through one or more
dependency edges. -/
def hasCycle (g : Graph) : Prop :=
  ∃ c, Relation.TransGen (edgeIn g) c c

/-- `d` occurs strictly before `c` in `l`. -/
def before (l : List Comp) (d c : Comp) : Prop :=
  ∃ l1 l2, l = l1 ++ l2 ∧ d ∈ l1 ∧ c ∈ l2

/-- A valid topological order for `g`: whenever an entry of `g` depends on
`d` and `d` is itself a component of `g`, `d` occurs strictly before it. -/
def topoOrdered (g : Graph) (l : List Comp) : Prop :=
  ∀ p ∈ g, ∀ d ∈ p.2, d ∈ graphKeys g → before l d p.1

/-- Update-or-create on an association list at key `c`: the new value is
`f (some old)` when the key is present and `f none` otherwise (Python dict
item assignment / `defaultdict` access). -/
def assocUpdate {β : Type} (l : List (Comp × β)) (c : Comp) (f : Option β → β) :
    List (Comp × β) :=
  if (l.lookup c).isSome then
    l.map (fun p => if p.1 = c then (c, f (some p.2)) else p)
  else l ++ [(c, f none)]

/-- A Python exception as seen by the run loop's except-clauses
(non-`MissingRequirements` exceptions carry an opaque numeric id;
tracebacks are not modelled). -/
inductive PyExc where
  | missingRequirements (r : MissingPair)
  | skipComponent
  | other (e : Nat)
deriving DecidableEq

/-- `Broker.add_exception(component, ex)`: a `MissingRequirements` is
recorded by dict assignment into `missing_requirements[component]`; any
other exception is appended to `exceptions[component]` (a `defaultdict`
of lists). -/
def Broker.add_exception (b : Broker) (c : Comp) (ex : PyExc) : Broker :=
  match ex with
  | .missingRequirements r =>
    { b with missing_requirements := assocUpdate b.missing_requirements c (fun _ => r) }
  | .skipComponent =>
    { b with exceptions := assocUpdate b.exceptions c (fun o => (o.getD []) ++ [0]) }
  | .other e =>
    { b with exceptions := assocUpdate b.exceptions c (fun o => (o.getD []) ++ [e]) }

/-- What one delegate invocation does: return a value or raise. -/
inductive Outcome where
  | value (v : Val)
  | raised (ex : PyExc)

/-- The `finally` bookkeeping of the run loop: `exec_times[component]` is
recorded (wall clock, not modelled) and `fire_observers(component)` is
invoked; the dispatch is logged in `fired` (the observers themselves are
modelled by `fire_observers` above). -/
def Broker.fireMark (b : Broker) (c : Comp) : Broker :=
  { b with fired := b.fired ++ [c] }

/-- One iteration of the `run` loop for component `c`: when `c` is not in
the broker and has a registered delegate (`delegates c`), the delegate is
invoked — `eval c b` is the component's arbitrary behaviour against the
current broker — and the result stored via `broker[component] = result`;
`MissingRequirements` and generic exceptions are recorded through
`add_exception`, `SkipComponent` is swallowed; the finally-clause
bookkeeping happens in every case. -/
def runStep (delegates : Comp → Bool) (eval : Comp → Broker → Outcome)
    (b : Broker) (c : Comp) : Broker :=
  Broker.fireMark
    (if !(b.contains c) && delegates c then
      match eval c b with
      | .value v =>
        match b.setitem c v with
        | .ok b2 => b2
        | .error _ => b.add_exception c (.other 0)
      | .raised (.missingRequirements r) => b.add_exception c (.missingRequirements r)
      | .raised .skipComponent => b
      | .raised (.other e) => b.add_exception c (.other e)
    else b) c

/-- `run(components, broker)`: order the graph with `run_order` (an error
there propagates) and fold the loop body over the order.  Callers pass
`Broker.empty` for the `broker or Broker()` default. -/
def run (delegates : Comp → Bool) (eval : Comp → Broker → Outcome)
    (components : Graph) (broker : Broker) : Except String Broker :=
  match run_order components broker with
  | .ok order => .ok (order.foldl (runStep delegates eval) broker)
  | .error e => .error e

/-- Keys of `missing_requirements`. -/
def Broker.missingKeys (b : Broker) : List Comp := b.missing_requirements.map Prod.fst

/-- Keys of `exceptions`. -/
def Broker.exceptionKeys (b : Broker) : List Comp := b.exceptions.map Prod.fst

/-- The except-clause dispatch of the run loop on a raised exception. -/
def handleExc (b : Broker) (c : Comp) (ex : PyExc) : Broker :=
  match ex with
  | .missingRequirements r => b.add_exception c (.missingRequirements r)
  | .skipComponent => b
  | .other e => b.add_exception c (.other e)

lemma args_foldl_eq_flatten (requires : List Req) (acc : List Comp) :
    requires.foldl (fun acc r =>
        match r with
        | Req.anyOf g => acc ++ g
        | Req.one c => acc ++ [c]) acc
      = acc ++ flatten_requires requires := by
  induction requires generalizing acc with
  | nil => simp [flatten_requires]
  | cons r rs ih =>
    cases r with
    | one c => simp [flatten_requires, List.flatMap_cons, ih, List.append_assoc] at *
    | anyOf g => simp [flatten_requires, List.flatMap_cons, ih, List.append_assoc] at *

/-- C2 counterexample: component `0` has `5` in its ignore set and `5` IS a
key of the broker, yet with an EMPTY requirement spec the computation
returns `None` instead of raising `SkipComponent` (the emptiness check
comes first in the source). -/
theorem C2_counterexample :
    (Broker.contains ⟨[(5, Val.int 1)], [], [], []⟩ 5 = true)
    ∧ get_missing_requirements [(0, [5])] 0 [] ⟨[(5, Val.int 1)], [], [], []⟩ = .ok none
    ∧ get_missing_requirements [(0, [5])] 0 [] ⟨[(5, Val.int 1)], [], [], []⟩ ≠ .error () :=
  ⟨rfl, rfl, by decide⟩

/-- C2 (amended): for every component `c` and broker `d`, if the
requirement spec is NON-EMPTY and some element of `ignore[c]` is a key of
`d`, the missing-requirement computation raises `SkipComponent`.  (With an
empty spec the source returns `None` before consulting `IGNORE`.) -/
theorem C2_ignore_raises_skip (ignore : IgnoreMap) (func : Comp) (requires : List Req)
    (d : Broker) (hreq : requires ≠ [])
    (hig : ∃ i ∈ (ignore.lookup func).getD [], d.contains i = true) :
    get_missing_requirements ignore func requires d = .error () := by
  have hne : requires.isEmpty = false := by
    cases requires with
    | nil => exact absurd rfl hreq
    | cons a l => rfl
  have hany : ((ignore.lookup func).getD []).any (fun i => d.contains i) = true :=
    List.any_eq_true.mpr hig
  simp only [get_missing_requirements, hne, hany, Bool.false_eq_true, if_false, if_true]

/-- Witness for C2: a concrete non-empty spec with an ignore hit raises
`SkipComponent`. -/
theorem C2_witness :
    get_missing_requirements [(0, [5])] 0 [Req.one 1] ⟨[(5, Val.int 1)], [], [], []⟩
      = .error () :=
  C2_ignore_raises_skip [(0, [5])] 0 [Req.one 1] ⟨[(5, Val.int 1)], [], [], []⟩
    (by decide) ⟨5, by decide, by decide⟩

lemma filter_not_contains_eq_nil_iff (l keys : List Comp) :
    l.filter (fun r => !(keys.contains r)) = [] ↔ ∀ r ∈ l, r ∈ keys := by
  rw [List.filter_eq_nil_iff]
  constructor
  · intro h r hr
    have hb := h r hr
    have hcx : keys.contains r = true := by
      cases hh : keys.contains r with
      | true => rfl
      | false => exact absurd (by rw [hh]; rfl) hb
    exact List.elem_iff.mp hcx
  · intro h r hr hcon
    have hcx : keys.contains r = true := List.elem_iff.mpr (h r hr)
    rw [hcx] at hcon
    exact absurd hcon (by decide)

lemma filter_disjoint_eq_nil_iff (l : List (List Comp)) (keys : List Comp) :
    l.filter (fun g => g.all (fun x => !(keys.contains x))) = [] ↔
      ∀ g ∈ l, ∃ x ∈ g, x ∈ keys := by
  rw [List.filter_eq_nil_iff]
  constructor
  · intro h g hg
    have hb := h g hg
    rw [List.all_eq_true] at hb
    push_neg at hb
    obtain ⟨x, hx, hxk⟩ := hb
    have hcx : keys.contains x = true := by
      cases hh : keys.contains x with
      | true => rfl
      | false => exact absurd (by rw [hh]; rfl) hxk
    exact ⟨x, hx, List.elem_iff.mp hcx⟩
  · intro h g hg
    obtain ⟨x, hx, hxk⟩ := h g hg
    rw [List.all_eq_true]
    push_neg
    refine ⟨x, hx, ?_⟩
    intro hcon
    have hcx : keys.contains x = true := List.elem_iff.mpr hxk
    rw [hcx] at hcon
    exact absurd hcon (by decide)

/-- C3: an empty spec yields `None`; and whenever the computation returns a
value (rather than skipping), the value is `None` exactly when every
singleton is a key of `d` and every any-of group meets the keys of `d`,
and otherwise it is the pair (singletons not in `d`, groups disjoint from
`d`), both in declared order. -/
theorem C3_get_missing_requirements (ignore : IgnoreMap) (func : Comp)
    (requires : List Req) (d : Broker) :
    (requires = [] → get_missing_requirements ignore func requires d = .ok none)
    ∧ (∀ v, get_missing_requirements ignore func requires d = .ok v →
        ((v = none ↔ ((∀ r ∈ (split_requirements requires).1, r ∈ d.keys)
            ∧ (∀ g ∈ (split_requirements requires).2, ∃ x ∈ g, x ∈ d.keys)))
         ∧ (v ≠ none →
            v = some ((split_requirements requires).1.filter (fun r => !(d.keys.contains r)),
              (split_requirements requires).2.filter
                (fun g => g.all (fun x => !(d.keys.contains x))))))) := by
  constructor
  · intro h
    subst h
    rfl
  · intro v hv
    by_cases hemp : requires = []
    · subst hemp
      simp only [get_missing_requirements, List.isEmpty_nil, if_true] at hv
      cases hv
      simp [split_requirements]
    · have hne : requires.isEmpty = false := by
        cases h : requires.isEmpty with
        | false => rfl
        | true => exact absurd (List.isEmpty_iff.mp h) hemp
      cases hany : ((ignore.lookup func).getD []).any (fun i => d.contains i) with
      | true =>
        unfold get_missing_requirements at hv
        rw [hne] at hv
        simp only [Bool.false_eq_true, if_false] at hv
        rw [hany] at hv
        simp only [if_true] at hv
        exact Except.noConfusion hv
      | false =>
        unfold get_missing_requirements at hv
        rw [hne] at hv
        simp only [Bool.false_eq_true, if_false] at hv
        rw [hany] at hv
        simp only [Bool.false_eq_true, if_false] at hv
        cases hc : ((split_requirements requires).1.filter
              (fun r => !(d.keys.contains r))).isEmpty
            && ((split_requirements requires).2.filter
              (fun g => g.all (fun x => !(d.keys.contains x)))).isEmpty with
        | true =>
          rw [hc, if_pos rfl] at hv
          injection hv with h2
          subst h2
          have hc2 := hc
          rw [Bool.and_eq_true, List.isEmpty_iff, List.isEmpty_iff,
            filter_not_contains_eq_nil_iff, filter_disjoint_eq_nil_iff] at hc2
          refine ⟨⟨fun _ => hc2, fun _ => rfl⟩, fun h => absurd rfl h⟩
        | false =>
          rw [hc, if_neg (by decide)] at hv
          injection hv with h2
          subst h2
          constructor
          · constructor
            · intro h
              exact Option.noConfusion h
            · intro hsat
              exfalso
              have h1 : ((split_requirements requires).1.filter
                  (fun r => !(d.keys.contains r))).isEmpty = true := by
                rw [List.isEmpty_iff, filter_not_contains_eq_nil_iff]
                exact hsat.1
              have h2 : ((split_requirements requires).2.filter
                  (fun g => g.all (fun x => !(d.keys.contains x)))).isEmpty = true := by
                rw [List.isEmpty_iff, filter_disjoint_eq_nil_iff]
                exact hsat.2
              rw [h1, h2] at hc
              exact absurd hc (by decide)
          · intro _
            rfl

/-- Witness for C3 at a concrete input: with a satisfied singleton the
computation returns `None`, and the characterisation holds there. -/
theorem C3_witness :
    get_missing_requirements [] 0 [] Broker.empty = .ok none :=
  (C3_get_missing_requirements [] 0 [] Broker.empty).1 rfl

/-- C1 counterexample: with `requires = ([A, B])` one any-of group,
`A = 0` producing `1` and `B = 1` absent, the source calls the component
with TWO positional arguments `f(1, None)` (taking `f` to be `Val.list`,
which reifies its received argument list, the result is
`[1, None]`), whereas the claim says it is called with the single argument
`[1, None]` (which would give `[[1, None]]`). -/
theorem C1_counterexample :
    default_executor [] 99 Val.list ⟨[(0, Val.int 1)], [], [], []⟩ [Req.anyOf [0, 1]] []
        = .ok (Val.list [Val.int 1, Val.none])
    ∧ default_executor_specModel [] 99 Val.list ⟨[(0, Val.int 1)], [], [], []⟩
        [Req.anyOf [0, 1]] [] = .ok (Val.list [Val.list [Val.int 1, Val.none]])
    ∧ Val.list [Val.int 1, Val.none] ≠ Val.list [Val.list [Val.int 1, Val.none]] :=
  ⟨rfl, rfl, by simp⟩

/-- C1 (amended): when the missing-requirement check passes, the default
executor calls the component with the positional arguments obtained by
FLATTENING the `requires` spec — every member of an any-of group becomes
its own argument — followed by the optionals, each looked up through
`broker.get` with default `None`. -/
theorem C1_default_executor_flattens (ignore : IgnoreMap) (func : Comp)
    (f : List Val → Val) (broker : Broker) (requires : List Req) (optional : List Comp)
    (h : get_missing_requirements ignore func requires broker = .ok none) :
    default_executor ignore func f broker requires optional =
      .ok (f ((flatten_requires requires ++ optional).map
        (fun a => broker.get a Val.none))) := by
  unfold default_executor
  rw [h]
  simp only [args_foldl_eq_flatten, List.nil_append]

/-- Witness for C1 (amended) at the any-of input: the executor returns the
component applied to the flattened lookups `[1, None]`. -/
theorem C1_witness :
    default_executor [] 99 Val.list ⟨[(0, Val.int 2)], [], [], []⟩ [Req.anyOf [0, 1]] [5]
      = .ok (Val.list ((flatten_requires [Req.anyOf [0, 1]] ++ [5]).map
          (fun a => Broker.get ⟨[(0, Val.int 2)], [], [], []⟩ a Val.none))) :=
  C1_default_executor_flattens [] 99 Val.list ⟨[(0, Val.int 2)], [], [], []⟩
    [Req.anyOf [0, 1]] [5] rfl

lemma register_component_mirrorForward (r : Registry) (dl : Delegate)
    (h : r.mirrorForward) : (register_component r dl).mirrorForward := by
  intro c d hd
  unfold register_component Registry.mirrorForward at *
  simp only at hd ⊢
  by_cases hc : c = dl.component
  · subst hc
    rw [Function.update_same] at hd
    rw [if_pos hd]
    exact Finset.mem_insert_self _ _
  · rw [Function.update_noteq hc] at hd
    have hmem := h c d hd
    by_cases hdm : d ∈ dl.dependencies
    · rw [if_pos hdm]
      exact Finset.mem_insert_of_mem hmem
    · rw [if_neg hdm]
      exact hmem

lemma foldl_register_mirrorForward (ds : List Delegate) (r : Registry)
    (h : r.mirrorForward) : (ds.foldl register_component r).mirrorForward := by
  induction ds generalizing r with
  | nil => exact h
  | cons dl ds ih =>
    exact ih (register_component r dl) (register_component_mirrorForward r dl h)

/-- C4 counterexample: register component `0` with dependency `1`, then
re-register it with an empty spec.  Afterwards `0 ∈ dependents[1]` but
`1 ∉ dependencies[0]` — the mirror equivalence claimed for "any sequence
of registrations, possibly with a different dependency spec" fails. -/
theorem C4_counterexample :
    (0 ∈ (register_component (register_component Registry.empty ⟨0, [Req.one 1], [], 0, 0⟩)
        ⟨0, [], [], 0, 0⟩).dependents 1)
    ∧ ¬(1 ∈ (register_component (register_component Registry.empty ⟨0, [Req.one 1], [], 0, 0⟩)
        ⟨0, [], [], 0, 0⟩).dependencies 0) := by
  constructor
  · decide
  · decide

/-- C4 (amended): after any sequence of registrations starting from the
empty registry, the FORWARD half of the mirror invariant holds:
`d ∈ dependencies[c] → c ∈ dependents[d]`.  The converse can fail after
re-registering a component with a smaller spec, because stale
`DEPENDENTS` entries are never removed. -/
theorem C4_mirror_forward (ds : List Delegate) (c d : Comp)
    (h : d ∈ (ds.foldl register_component Registry.empty).dependencies c) :
    c ∈ (ds.foldl register_component Registry.empty).dependents d :=
  foldl_register_mirrorForward ds Registry.empty
    (fun _ _ hx => absurd hx (Finset.not_mem_empty _)) c d h

/-- Witness for C4 (amended): registering `0` with dependency `1` makes
`0` a dependent of `1`. -/
theorem C4_witness :
    0 ∈ (([⟨0, [Req.one 1], [], 0, 0⟩] : List Delegate).foldl
      register_component Registry.empty).dependents 1 :=
  C4_mirror_forward [⟨0, [Req.one 1], [], 0, 0⟩] 0 1 (by decide)

/-- C10: registering the same component twice (possibly with different
group and type) re-seats the delegate (last writer wins), adds the
component to the new group and type indices, and leaves it in the
previously registered group's `COMPONENTS` key set and the previous
type's `COMPONENTS_BY_TYPE` set — and more generally registration never
removes an entry from either index. -/
theorem C10_register_stale_indices (r0 : Registry) (d1 d2 : Delegate)
    (h : d2.component = d1.component) :
    ((register_component (register_component r0 d1) d2).delegates d1.component = some d2)
    ∧ d1.component ∈
        (register_component (register_component r0 d1) d2).components_keys d1.group
    ∧ d1.component ∈
        (register_component (register_component r0 d1) d2).components_keys d2.group
    ∧ d1.component ∈
        (register_component (register_component r0 d1) d2).components_by_type d1.type
    ∧ d1.component ∈
        (register_component (register_component r0 d1) d2).components_by_type d2.type
    ∧ (∀ g x, x ∈ r0.components_keys g →
        x ∈ (register_component (register_component r0 d1) d2).components_keys g)
    ∧ (∀ t x, x ∈ r0.components_by_type t →
        x ∈ (register_component (register_component r0 d1) d2).components_by_type t) := by
  unfold register_component
  simp only
  refine ⟨?_, ?_, ?_, ?_, ?_, ?_, ?_⟩
  · rw [← h, Function.update_same]
  · by_cases hg : d1.group = d2.group
    · rw [if_pos hg]
      rw [h]
      exact Finset.mem_insert_self _ _
    · rw [if_neg hg, if_true]
      exact Finset.mem_insert_self _ _
  · rw [if_true, h]
    exact Finset.mem_insert_self _ _
  · by_cases ht : d1.type = d2.type
    · rw [if_pos ht, h]
      exact Finset.mem_insert_self _ _
    · rw [if_neg ht, if_true]
      exact Finset.mem_insert_self _ _
  · rw [if_true, h]
    exact Finset.mem_insert_self _ _
  · intro g x hx
    by_cases hg2 : g = d2.group
    · rw [if_pos hg2]
      by_cases hg1 : g = d1.group
      · rw [if_pos hg1]
        exact Finset.mem_insert_of_mem (Finset.mem_insert_of_mem hx)
      · rw [if_neg hg1]
        exact Finset.mem_insert_of_mem hx
    · rw [if_neg hg2]
      by_cases hg1 : g = d1.group
      · rw [if_pos hg1]
        exact Finset.mem_insert_of_mem hx
      · rw [if_neg hg1]
        exact hx
  · intro t x hx
    by_cases ht2 : t = d2.type
    · rw [if_pos ht2]
      by_cases ht1 : t = d1.type
      · rw [if_pos ht1]
        exact Finset.mem_insert_of_mem (Finset.mem_insert_of_mem hx)
      · rw [if_neg ht1]
        exact Finset.mem_insert_of_mem hx
    · rw [if_neg ht2]
      by_cases ht1 : t = d1.type
      · rw [if_pos ht1]
        exact Finset.mem_insert_of_mem hx
      · rw [if_neg ht1]
        exact hx

/-- Witness for C10: a concrete re-registration with new group and type
re-seats the delegate. -/
theorem C10_witness :
    (register_component (register_component Registry.empty ⟨0, [], [], 1, 2⟩)
      ⟨0, [], [], 3, 4⟩).delegates 0 = some ⟨0, [], [], 3, 4⟩ :=
  (C10_register_stale_indices Registry.empty ⟨0, [], [], 1, 2⟩ ⟨0, [], [], 3, 4⟩ rfl).1

lemma lookup_isSome_iff_mem_map_fst {β : Type} (l : List (Comp × β)) (c : Comp) :
    (l.lookup c).isSome = true ↔ c ∈ l.map Prod.fst := by
  induction l with
  | nil => simp [List.lookup]
  | cons p l ih =>
    obtain ⟨k, w⟩ := p
    by_cases hck : c = k
    · subst hck
      simp [List.lookup_cons]
    · have hb : (c == k) = false := beq_eq_false_iff_ne.mpr hck
      simp [List.lookup_cons, hb, ih, hck]

/-- C7 counterexample: deleting an absent key from a broker is a silent
no-op in the source (`__delitem__` only deletes when the key is present
and otherwise just returns), whereas plain-mapping deletion of an absent
key fails with `KeyError`. -/
theorem C7_counterexample :
    Broker.contains Broker.empty 0 = false
    ∧ Broker.delitem Broker.empty 0 = .ok Broker.empty :=
  ⟨rfl, rfl⟩

/-- C7 (amended): `put` fails with the already-present `KeyError` when the
key exists and otherwise only appends to `instances` (so it fires no
observers and touches no other broker state); `get(c, default)` never
fails and returns the stored value or the default; `__getitem__` raises on
an unknown component; containment is key membership of `instances`;
present-key deletion removes the key; ABSENT-KEY DELETION IS A SILENT
NO-OP (it does not fail). -/
theorem C7_broker_mapping_ops (b : Broker) (c : Comp) (v default : Val) :
    (b.contains c = true → b.setitem c v = .error "Already exists in broker with key")
    ∧ (b.contains c = false →
        b.setitem c v = .ok { b with instances := b.instances ++ [(c, v)] })
    ∧ (∀ r, b.setitem c v = .ok r → r.missing_requirements = b.missing_requirements
        ∧ r.exceptions = b.exceptions ∧ r.fired = b.fired)
    ∧ (b.contains c = true → ∃ w, b.getitem c = .ok w ∧ b.get c default = w)
    ∧ (b.contains c = false → b.getitem c = .error "Unknown component"
        ∧ b.get c default = default)
    ∧ (b.contains c = true ↔ c ∈ b.keys)
    ∧ (b.contains c = true →
        b.delitem c = .ok { b with instances := b.instances.eraseP (fun p => p.1 == c) })
    ∧ (b.contains c = false → b.delitem c = .ok b) := by
  refine ⟨?_, ?_, ?_, ?_, ?_, ?_, ?_, ?_⟩
  · intro h
    rw [Broker.setitem, if_pos h]
  · intro h
    rw [Broker.setitem, if_neg (by rw [h]; exact Bool.false_ne_true)]
  · intro r hr
    rw [Broker.setitem] at hr
    by_cases h : b.contains c = true
    · rw [if_pos h] at hr
      exact Except.noConfusion hr
    · rw [if_neg h] at hr
      injection hr with hr2
      subst hr2
      exact ⟨rfl, rfl, rfl⟩
  · intro h
    rw [Broker.contains] at h
    obtain ⟨w, hw⟩ := Option.isSome_iff_exists.mp h
    refine ⟨w, ?_, ?_⟩
    · rw [Broker.getitem, hw]
    · rw [Broker.get, Broker.getitem, hw]
  · intro h
    rw [Broker.contains] at h
    have hw : b.instances.lookup c = none := by
      cases hl : b.instances.lookup c with
      | none => rfl
      | some w => rw [hl] at h; exact absurd h (by simp)
    constructor
    · rw [Broker.getitem, hw]
    · rw [Broker.get, Broker.getitem, hw]
  · rw [Broker.contains, Broker.keys]
    exact lookup_isSome_iff_mem_map_fst b.instances c
  · intro h
    rw [Broker.delitem, if_pos h]
  · intro h
    rw [Broker.delitem, if_neg (by rw [h]; exact Bool.false_ne_true)]

/-- Witness for C7 at a concrete broker: putting over an existing key is
refused with the already-present error. -/
theorem C7_witness :
    Broker.setitem ⟨[(0, Val.int 1)], [], [], []⟩ 0 Val.none
      = .error "Already exists in broker with key" :=
  (C7_broker_mapping_ops ⟨[(0, Val.int 1)], [], [], []⟩ 0 Val.none Val.none).1 rfl

/-- C8: when the component has no registered type nothing happens;
otherwise every observer registered under that type and every observer
registered under `ANY` is invoked with the arguments `(c, self)`, each
recorded with its own outcome, and no raising observer prevents the rest:
the number of invocations always equals the size of the observer union. -/
theorem C8_fire_observers (typeOf : Comp → Option Nat) (obsTyped : Nat → List Nat)
    (obsAny : List Nat) (raises : Nat → Comp → Bool) (selfId : Nat) (c : Comp) :
    (typeOf c = none → fire_observers typeOf obsTyped obsAny raises selfId c = [])
    ∧ (∀ t, typeOf c = some t → ∀ o, (o ∈ obsTyped t ∨ o ∈ obsAny) →
        (⟨o, c, selfId, raises o c⟩ : ObsCall)
          ∈ fire_observers typeOf obsTyped obsAny raises selfId c)
    ∧ (∀ call ∈ fire_observers typeOf obsTyped obsAny raises selfId c,
        call.component = c ∧ call.broker = selfId)
    ∧ (∀ t, typeOf c = some t →
        (fire_observers typeOf obsTyped obsAny raises selfId c).length
          = ((obsTyped t).union obsAny).length) := by
  refine ⟨?_, ?_, ?_, ?_⟩
  · intro h
    rw [fire_observers, h]
  · intro t ht o ho
    rw [fire_observers, ht]
    exact List.mem_map.mpr ⟨o, List.mem_union_iff.mpr ho, rfl⟩
  · intro call hcall
    rw [fire_observers] at hcall
    cases h : typeOf c with
    | none =>
      rw [h] at hcall
      exact absurd hcall (List.not_mem_nil call)
    | some t =>
      rw [h] at hcall
      obtain ⟨o, _, ho2⟩ := List.mem_map.mp hcall
      rw [← ho2]
      exact ⟨rfl, rfl⟩
  · intro t ht
    rw [fire_observers, ht]
    exact List.length_map _ _

/-- Witness for C8: a component with no registered type fires nothing,
even with observers present. -/
theorem C8_witness :
    fire_observers (fun _ => none) (fun _ => [7]) [8] (fun _ _ => true) 3 0 = [] :=
  (C8_fire_observers (fun _ => none) (fun _ => [7]) [8] (fun _ _ => true) 3 0).1 rfl

lemma toposortRounds_succ (fuel : Nat) (rem : Graph) (hne : rem ≠ []) :
    toposortRounds (fuel + 1) rem =
      if (rem.filter (depsSat (graphKeys rem))).isEmpty then .error cycleMsg
      else
        match toposortRounds fuel (rem.filter (fun q => !(depsSat (graphKeys rem) q))) with
        | .ok tail => .ok ((rem.filter (depsSat (graphKeys rem))).map Prod.fst ++ tail)
        | .error e => .error e := by
  cases rem with
  | nil => exact absurd rfl hne
  | cons p r => rfl

lemma mem_filter_partition {α : Type} (q : α → Bool) (l : List α) (x : α) :
    x ∈ l ↔ x ∈ l.filter q ∨ x ∈ l.filter (fun y => !(q y)) := by
  constructor
  · intro hx
    cases hq : q x with
    | true => exact Or.inl (List.mem_filter.mpr ⟨hx, hq⟩)
    | false => exact Or.inr (List.mem_filter.mpr ⟨hx, by rw [hq]; rfl⟩)
  · intro h
    cases h with
    | inl h => exact (List.mem_filter.mp h).1
    | inr h => exact (List.mem_filter.mp h).1

lemma mem_graphKeys {g : Graph} {c : Comp} : c ∈ graphKeys g ↔ ∃ p ∈ g, p.1 = c := by
  simp [graphKeys, List.mem_map]

lemma graphKeys_filter_partition (q : Comp × List Comp → Bool) (g : Graph) (c : Comp) :
    c ∈ graphKeys g ↔
      c ∈ graphKeys (g.filter q) ∨ c ∈ graphKeys (g.filter (fun x => !(q x))) := by
  rw [mem_graphKeys, mem_graphKeys, mem_graphKeys]
  constructor
  · rintro ⟨p, hp, rfl⟩
    rcases (mem_filter_partition q g p).mp hp with h | h
    · exact Or.inl ⟨p, h, rfl⟩
    · exact Or.inr ⟨p, h, rfl⟩
  · rintro (⟨p, hp, rfl⟩ | ⟨p, hp, rfl⟩)
    · exact ⟨p, (List.mem_filter.mp hp).1, rfl⟩
    · exact ⟨p, (List.mem_filter.mp hp).1, rfl⟩

lemma toposortRounds_mem (fuel : Nat) (rem : Graph) (l : List Comp)
    (h : toposortRounds fuel rem = .ok l) :
    ∀ c, c ∈ l ↔ c ∈ graphKeys rem := by
  induction fuel generalizing rem l with
  | zero =>
    cases rem with
    | nil =>
      injection h with h2
      subst h2
      simp [graphKeys]
    | cons p r => exact Except.noConfusion h
  | succ fuel ih =>
    cases rem with
    | nil =>
      injection h with h2
      subst h2
      simp [graphKeys]
    | cons p r =>
      rw [toposortRounds_succ fuel (p :: r) (by simp)] at h
      cases hready : ((p :: r).filter (depsSat (graphKeys (p :: r)))).isEmpty with
      | true =>
        rw [if_pos hready] at h
        exact Except.noConfusion h
      | false =>
        rw [if_neg (by rw [hready]; exact Bool.false_ne_true)] at h
        cases hrec : toposortRounds fuel
            ((p :: r).filter (fun q => !(depsSat (graphKeys (p :: r)) q))) with
        | error e =>
          rw [hrec] at h
          exact Except.noConfusion h
        | ok tail =>
          rw [hrec] at h
          injection h with h2
          subst h2
          intro c
          rw [List.mem_append,
            graphKeys_filter_partition (depsSat (graphKeys (p :: r))) (p :: r) c]
          have hc2 := ih _ tail hrec c
          exact or_congr Iff.rfl hc2

lemma toposortRounds_nodup (fuel : Nat) (rem : Graph) (l : List Comp)
    (hnd : (graphKeys rem).Nodup) (h : toposortRounds fuel rem = .ok l) :
    l.Nodup := by
  induction fuel generalizing rem l with
  | zero =>
    cases rem with
    | nil =>
      injection h with h2
      subst h2
      exact List.nodup_nil
    | cons p r => exact Except.noConfusion h
  | succ fuel ih =>
    cases rem with
    | nil =>
      injection h with h2
      subst h2
      exact List.nodup_nil
    | cons p r =>
      rw [toposortRounds_succ fuel (p :: r) (by simp)] at h
      cases hready : ((p :: r).filter (depsSat (graphKeys (p :: r)))).isEmpty with
      | true =>
        rw [if_pos hready] at h
        exact Except.noConfusion h
      | false =>
        rw [if_neg (by rw [hready]; exact Bool.false_ne_true)] at h
        cases hrec : toposortRounds fuel
            ((p :: r).filter (fun q => !(depsSat (graphKeys (p :: r)) q))) with
        | error e =>
          rw [hrec] at h
          exact Except.noConfusion h
        | ok tail =>
          rw [hrec] at h
          injection h with h2
          subst h2
          have hndr : (graphKeys ((p :: r).filter
              (fun q => !(depsSat (graphKeys (p :: r)) q)))).Nodup :=
            List.Nodup.sublist ((List.filter_sublist (p :: r)).map Prod.fst) hnd
          have hnd1 : (((p :: r).filter (depsSat (graphKeys (p :: r)))).map Prod.fst).Nodup :=
            List.Nodup.sublist ((List.filter_sublist (p :: r)).map Prod.fst) hnd
          rw [List.nodup_append]
          refine ⟨hnd1, ih _ tail hndr hrec, ?_⟩
          intro c hc1 hc2
          obtain ⟨pr, hpr, hprc⟩ := List.mem_map.mp hc1
          have hc3 := (toposortRounds_mem fuel _ tail hrec c).mp hc2
          obtain ⟨qr, hqr, hqrc⟩ := List.mem_map.mp hc3
          have hpe : pr ∈ (p :: r) := (List.mem_filter.mp hpr).1
          have hqe : qr ∈ (p :: r) := (List.mem_filter.mp hqr).1
          have heq : pr = qr :=
            List.inj_on_of_nodup_map hnd hpe hqe (by rw [hprc, hqrc])
          have hsat : depsSat (graphKeys (p :: r)) pr = true := (List.mem_filter.mp hpr).2
          have hunsat : (!(depsSat (graphKeys (p :: r)) qr)) = true := (List.mem_filter.mp hqr).2
          rw [← heq, hsat] at hunsat
          exact absurd hunsat (by decide)

lemma before_append_left (xs t : List Comp) (d c : Comp) (h : before t d c) :
    before (xs ++ t) d c := by
  obtain ⟨l1, l2, hl, hd, hc⟩ := h
  exact ⟨xs ++ l1, l2, by rw [hl, List.append_assoc],
    List.mem_append.mpr (Or.inr hd), hc⟩

lemma toposortRounds_ordered (fuel : Nat) (rem : Graph) (l : List Comp)
    (hnd : (graphKeys rem).Nodup) (h : toposortRounds fuel rem = .ok l) :
    topoOrdered rem l := by
  induction fuel generalizing rem l with
  | zero =>
    cases rem with
    | nil => intro p hp; exact absurd hp (List.not_mem_nil p)
    | cons p r => exact Except.noConfusion h
  | succ fuel ih =>
    cases rem with
    | nil => intro p hp; exact absurd hp (List.not_mem_nil p)
    | cons p r =>
      rw [toposortRounds_succ fuel (p :: r) (by simp)] at h
      cases hready : ((p :: r).filter (depsSat (graphKeys (p :: r)))).isEmpty with
      | true =>
        rw [if_pos hready] at h
        exact Except.noConfusion h
      | false =>
        rw [if_neg (by rw [hready]; exact Bool.false_ne_true)] at h
        cases hrec : toposortRounds fuel
            ((p :: r).filter (fun q => !(depsSat (graphKeys (p :: r)) q))) with
        | error e =>
          rw [hrec] at h
          exact Except.noConfusion h
        | ok tail =>
          rw [hrec] at h
          injection h with h2
          subst h2
          intro p0 hp0 d hd hdK
          rcases (mem_filter_partition (depsSat (graphKeys (p :: r))) (p :: r) p0).mp hp0
            with hp0r | hp0r
          · exfalso
            have hsat : depsSat (graphKeys (p :: r)) p0 = true := (List.mem_filter.mp hp0r).2
            rw [depsSat, List.all_eq_true] at hsat
            have := hsat d hd
            have hck : (graphKeys (p :: r)).contains d = true := List.elem_iff.mpr hdK
            rw [hck] at this
            exact absurd this (by decide)
          · rcases (graphKeys_filter_partition (depsSat (graphKeys (p :: r))) (p :: r) d).mp hdK
              with hdr | hdr
            · refine ⟨((p :: r).filter (depsSat (graphKeys (p :: r)))).map Prod.fst, tail,
                rfl, hdr, ?_⟩
              exact (toposortRounds_mem fuel _ tail hrec p0.1).mpr
                (List.mem_map.mpr ⟨p0, hp0r, rfl⟩)
            · have hndr : (graphKeys ((p :: r).filter
                  (fun q => !(depsSat (graphKeys (p :: r)) q)))).Nodup :=
                List.Nodup.sublist ((List.filter_sublist (p :: r)).map Prod.fst) hnd
              exact before_append_left _ _ _ _ (ih _ tail hndr hrec p0 hp0r d hd hdr)

lemma exists_cycle_of_succ (S : List Comp) (r : Comp → Comp → Prop) (hS : S ≠ [])
    (h : ∀ c ∈ S, ∃ d, r c d ∧ d ∈ S) : ∃ c, Relation.TransGen r c c := by
  by_contra hcon
  push_neg at hcon
  haveI hfin : Finite {x // x ∈ S} := (List.finite_toSet S).to_subtype
  haveI : IsTrans {x // x ∈ S} (fun a b => Relation.TransGen r b.1 a.1) :=
    ⟨fun _ _ _ hab hbc => Relation.TransGen.trans hbc hab⟩
  haveI : IsIrrefl {x // x ∈ S} (fun a b => Relation.TransGen r b.1 a.1) :=
    ⟨fun a ha => hcon a.1 ha⟩
  have hwf : WellFounded (fun a b : {x // x ∈ S} => Relation.TransGen r b.1 a.1) :=
    Finite.wellFounded_of_trans_of_irrefl _
  have hne : ∃ x : {x // x ∈ S}, True := by
    cases S with
    | nil => exact absurd rfl hS
    | cons a t => exact ⟨⟨a, List.mem_cons_self a t⟩, trivial⟩
  obtain ⟨c0, _⟩ := hne
  obtain ⟨m, _, hmin⟩ := hwf.has_min Set.univ ⟨c0, Set.mem_univ c0⟩
  obtain ⟨d, hrd, hdS⟩ := h m.1 m.2
  exact hmin ⟨d, hdS⟩ (Set.mem_univ _) (Relation.TransGen.single hrd)

lemma hasCycle_mono {g1 g2 : Graph} (hsub : ∀ p ∈ g1, p ∈ g2) (h : hasCycle g1) :
    hasCycle g2 := by
  obtain ⟨c, hc⟩ := h
  exact ⟨c, Relation.TransGen.mono
    (fun a b hab => by
      obtain ⟨p, hp, h1, h2⟩ := hab
      exact ⟨p, hsub p hp, h1, h2⟩) hc⟩

lemma stuck_has_cycle (rem : Graph) (hne : rem ≠ [])
    (hstuck : rem.filter (depsSat (graphKeys rem)) = []) : hasCycle rem := by
  have hstep : ∀ c ∈ graphKeys rem, ∃ d, edgeIn rem c d ∧ d ∈ graphKeys rem := by
    intro c hc
    obtain ⟨p, hp, hpc⟩ := mem_graphKeys.mp hc
    have hns := List.filter_eq_nil_iff.mp hstuck p hp
    rw [depsSat, List.all_eq_true] at hns
    push_neg at hns
    obtain ⟨d, hd, hdk⟩ := hns
    have hck : (graphKeys rem).contains d = true := by
      cases hh : (graphKeys rem).contains d with
      | true => rfl
      | false => exact absurd (by rw [hh]; rfl) hdk
    exact ⟨d, ⟨p, hp, hpc, hd⟩, List.elem_iff.mp hck⟩
  have hkne : graphKeys rem ≠ [] := by
    cases rem with
    | nil => exact absurd rfl hne
    | cons p r => simp [graphKeys]
  exact exists_cycle_of_succ (graphKeys rem) (edgeIn rem) hkne hstep

lemma toposortRounds_error_cycle (fuel : Nat) (rem : Graph) (e : String)
    (hlen : rem.length ≤ fuel) (h : toposortRounds fuel rem = .error e) :
    hasCycle rem := by
  induction fuel generalizing rem e with
  | zero =>
    cases rem with
    | nil => exact Except.noConfusion h
    | cons p r => simp at hlen
  | succ fuel ih =>
    cases rem with
    | nil => exact Except.noConfusion h
    | cons p r =>
      rw [toposortRounds_succ fuel (p :: r) (by simp)] at h
      cases hready : ((p :: r).filter (depsSat (graphKeys (p :: r)))).isEmpty with
      | true =>
        exact stuck_has_cycle (p :: r) (by simp) (List.isEmpty_iff.mp hready)
      | false =>
        rw [if_neg (by rw [hready]; exact Bool.false_ne_true)] at h
        cases hrec : toposortRounds fuel
            ((p :: r).filter (fun q => !(depsSat (graphKeys (p :: r)) q))) with
        | ok tail =>
          rw [hrec] at h
          exact Except.noConfusion h
        | error e2 =>
          have hlt : ((p :: r).filter
              (fun q => !(depsSat (graphKeys (p :: r)) q))).length < (p :: r).length := by
            rw [List.length_filter_lt_length_iff_exists]
            have hne2 : (p :: r).filter (depsSat (graphKeys (p :: r))) ≠ [] := by
              intro hnil
              rw [hnil] at hready
              exact absurd hready (by decide)
            obtain ⟨x, hx⟩ := List.exists_mem_of_ne_nil _ hne2
            refine ⟨x, (List.mem_filter.mp hx).1, ?_⟩
            have hsat := (List.mem_filter.mp hx).2
            rw [hsat]
            decide
          have hcyc := ih ((p :: r).filter
            (fun q => !(depsSat (graphKeys (p :: r)) q))) e2 (by omega) hrec
          exact hasCycle_mono (fun q hq => (List.mem_filter.mp hq).1) hcyc

lemma toposortRounds_error_msg (fuel : Nat) (rem : Graph) (e : String)
    (h : toposortRounds fuel rem = .error e) : e = cycleMsg := by
  induction fuel generalizing rem e with
  | zero =>
    cases rem with
    | nil => exact Except.noConfusion h
    | cons p r =>
      injection h with h2
      exact h2.symm
  | succ fuel ih =>
    cases rem with
    | nil => exact Except.noConfusion h
    | cons p r =>
      rw [toposortRounds_succ fuel (p :: r) (by simp)] at h
      cases hready : ((p :: r).filter (depsSat (graphKeys (p :: r)))).isEmpty with
      | true =>
        rw [if_pos hready] at h
        injection h with h2
        exact h2.symm
      | false =>
        rw [if_neg (by rw [hready]; exact Bool.false_ne_true)] at h
        cases hrec : toposortRounds fuel
            ((p :: r).filter (fun q => !(depsSat (graphKeys (p :: r)) q))) with
        | ok tail =>
          rw [hrec] at h
          exact Except.noConfusion h
        | error e2 =>
          rw [hrec] at h
          injection h with h2
          rw [← h2]
          exact ih _ e2 hrec

lemma before_trans {l : List Comp} (hnd : l.Nodup) {a b c : Comp}
    (h1 : before l a b) (h2 : before l b c) : before l a c := by
  obtain ⟨l1, l2, hl, ha, hb⟩ := h1
  obtain ⟨m1, m2, hm, hb2, hc⟩ := h2
  have heq : l1 ++ l2 = m1 ++ m2 := by rw [← hl, ← hm]
  rcases List.append_eq_append_iff.mp heq with ⟨k, hk1, hk2⟩ | ⟨k, hk1, hk2⟩
  · exact ⟨m1, m2, hm, by rw [hk1]; exact List.mem_append.mpr (Or.inl ha), hc⟩
  · exfalso
    have hnd2 : (l1 ++ l2).Nodup := by rw [← hl]; exact hnd
    rw [List.nodup_append] at hnd2
    exact hnd2.2.2 (by rw [hk1]; exact List.mem_append.mpr (Or.inl hb2)) hb

lemma topoOrdered_acyclic (g : Graph) (l : List Comp) (hnd : l.Nodup)
    (hord : topoOrdered g l) : ¬ hasCycle g := by
  rintro ⟨c, hc⟩
  have main : ∀ a b, Relation.TransGen (edgeIn g) a b →
      (b ∈ graphKeys g → before l b a) := by
    intro a b htg
    induction htg with
    | single h =>
      intro hbK
      obtain ⟨p, hp, hpa, hd⟩ := h
      rw [← hpa]
      exact hord p hp _ hd hbK
    | tail hT hr ih =>
      intro hcK
      obtain ⟨p, hp, hpb, hd⟩ := hr
      have hbefore1 : before l _ p.1 := hord p hp _ hd hcK
      have hbK : p.1 ∈ graphKeys g := mem_graphKeys.mpr ⟨p, hp, rfl⟩
      rw [hpb] at hbefore1 hbK
      exact before_trans hnd hbefore1 (ih hbK)
  have hfirst : ∀ a b, Relation.TransGen (edgeIn g) a b → ∃ x, edgeIn g a x := by
    intro a b htg
    induction htg with
    | single h => exact ⟨_, h⟩
    | tail hT hr ih => exact ih
  have hcK : c ∈ graphKeys g := by
    obtain ⟨x, hx⟩ := hfirst c c hc
    obtain ⟨p, hp, hpa, _⟩ := hx
    exact mem_graphKeys.mpr ⟨p, hp, hpa⟩
  obtain ⟨l1, l2, hl, h1, h2⟩ := main c c hc hcK
  have hnd2 : (l1 ++ l2).Nodup := by rw [← hl]; exact hnd
  rw [List.nodup_append] at hnd2
  exact hnd2.2.2 h1 h2

/-- C6: for a graph with distinct keys, when the graph is acyclic
`run_order` returns a duplicate-free linear ordering of exactly the
graph's components in which every component appears after all of the
dependencies it depends on within the input graph; when the graph is
cyclic the call fails with the cyclic-dependencies error instead of
returning an ordering. -/
theorem C6_run_order_topological (g : Graph) (b : Broker)
    (hnd : (graphKeys g).Nodup) :
    (¬ hasCycle g → ∃ l, run_order g b = .ok l ∧ l.Nodup
      ∧ (∀ c, c ∈ l ↔ c ∈ graphKeys g) ∧ topoOrdered g l)
    ∧ (hasCycle g → run_order g b = .error cycleMsg) := by
  constructor
  · intro hacyc
    cases hres : run_order g b with
    | ok l =>
      exact ⟨l, rfl, toposortRounds_nodup g.length g l hnd hres,
        toposortRounds_mem g.length g l hres,
        toposortRounds_ordered g.length g l hnd hres⟩
    | error e =>
      exact absurd (toposortRounds_error_cycle g.length g e (le_refl _) hres) hacyc
  · intro hcyc
    cases hres : run_order g b with
    | ok l =>
      exact absurd hcyc (topoOrdered_acyclic g l
        (toposortRounds_nodup g.length g l hnd hres)
        (toposortRounds_ordered g.length g l hnd hres))
    | error e =>
      rw [toposortRounds_error_msg g.length g e hres]

/-- Witness for C6: the two-cycle `0 → 1 → 0` is rejected with the
cyclic-dependencies error. -/
theorem C6_witness :
    run_order [(0, [1]), (1, [0])] Broker.empty = .error cycleMsg :=
  (C6_run_order_topological [(0, [1]), (1, [0])] Broker.empty (by decide)).2
    ⟨0, Relation.TransGen.head ⟨(0, [1]), by decide, rfl, by decide⟩
      (Relation.TransGen.single ⟨(1, [0]), by decide, rfl, by decide⟩)⟩

lemma map_fst_assocUpdate_present {β : Type} (l : List (Comp × β)) (c : Comp)
    (f : Option β → β) (h : (l.lookup c).isSome = true) :
    (assocUpdate l c f).map Prod.fst = l.map Prod.fst := by
  unfold assocUpdate
  rw [h, if_pos rfl, List.map_map]
  apply List.map_congr_left
  intro p _
  by_cases hp : p.1 = c
  · simp [Function.comp, hp]
  · simp [Function.comp, hp]

lemma map_fst_assocUpdate_absent {β : Type} (l : List (Comp × β)) (c : Comp)
    (f : Option β → β) (h : (l.lookup c).isSome = false) :
    (assocUpdate l c f).map Prod.fst = l.map Prod.fst ++ [c] := by
  unfold assocUpdate
  rw [h, if_neg (by decide), List.map_append]
  rfl

lemma mem_map_fst_assocUpdate_iff {β : Type} (l : List (Comp × β)) (c : Comp)
    (f : Option β → β) (x : Comp) :
    x ∈ (assocUpdate l c f).map Prod.fst ↔ (x ∈ l.map Prod.fst ∨ x = c) := by
  cases h : (l.lookup c).isSome with
  | false =>
    rw [map_fst_assocUpdate_absent l c f h, List.mem_append, List.mem_singleton]
  | true =>
    rw [map_fst_assocUpdate_present l c f h]
    constructor
    · exact Or.inl
    · rintro (hx | rfl)
      · exact hx
      · exact (lookup_isSome_iff_mem_map_fst l x).mp h

lemma mem_map_fst_append_single {β : Type} (l : List (Comp × β)) (c : Comp) (v : β)
    (x : Comp) :
    x ∈ (l ++ [(c, v)]).map Prod.fst ↔ x ∈ l.map Prod.fst ∨ x = c := by
  rw [List.map_append, List.mem_append]
  simp

lemma runStep_eq_of_guard_false (delegates : Comp → Bool) (eval : Comp → Broker → Outcome)
    (b : Broker) (c : Comp) (hg : (!(b.contains c) && delegates c) = false) :
    runStep delegates eval b c = Broker.fireMark b c := by
  unfold runStep
  rw [hg]
  rfl

lemma runStep_eq_of_value (delegates : Comp → Bool) (eval : Comp → Broker → Outcome)
    (b : Broker) (c : Comp) (v : Val)
    (hg : (!(b.contains c) && delegates c) = true) (hev : eval c b = .value v) :
    runStep delegates eval b c =
      Broker.fireMark { b with instances := b.instances ++ [(c, v)] } c := by
  have hcf : b.contains c = false := by
    rw [Bool.and_eq_true] at hg
    have h2 := hg.1
    rw [Bool.not_eq_true'] at h2
    exact h2
  unfold runStep
  rw [hg, hev]
  unfold Broker.setitem
  rw [hcf]
  rfl

lemma runStep_eq_of_raised (delegates : Comp → Bool) (eval : Comp → Broker → Outcome)
    (b : Broker) (c : Comp) (ex : PyExc)
    (hg : (!(b.contains c) && delegates c) = true) (hev : eval c b = .raised ex) :
    runStep delegates eval b c = Broker.fireMark (handleExc b c ex) c := by
  cases ex with
  | missingRequirements r =>
    unfold runStep handleExc
    rw [hg, hev]
    rfl
  | skipComponent =>
    unfold runStep handleExc
    rw [hg, hev]
    rfl
  | other e =>
    unfold runStep handleExc
    rw [hg, hev]
    rfl

lemma runStep_frame (delegates : Comp → Bool) (eval : Comp → Broker → Outcome)
    (b : Broker) (c' x : Comp) (hx : x ≠ c') :
    ((x ∈ (runStep delegates eval b c').keys ↔ x ∈ b.keys)
    ∧ (x ∈ (runStep delegates eval b c').missingKeys ↔ x ∈ b.missingKeys)
    ∧ (x ∈ (runStep delegates eval b c').exceptionKeys ↔ x ∈ b.exceptionKeys)) := by
  cases hg : (!(b.contains c') && delegates c') with
  | false =>
    rw [runStep_eq_of_guard_false delegates eval b c' hg]
    exact ⟨Iff.rfl, Iff.rfl, Iff.rfl⟩
  | true =>
    cases hev : eval c' b with
    | value v =>
      rw [runStep_eq_of_value delegates eval b c' v hg hev]
      refine ⟨?_, Iff.rfl, Iff.rfl⟩
      show x ∈ (b.instances ++ [(c', v)]).map Prod.fst ↔ x ∈ b.instances.map Prod.fst
      rw [mem_map_fst_append_single]
      constructor
      · rintro (h | rfl)
        · exact h
        · exact absurd rfl hx
      · exact Or.inl
    | raised ex =>
      rw [runStep_eq_of_raised delegates eval b c' ex hg hev]
      cases ex with
      | missingRequirements r =>
        refine ⟨Iff.rfl, ?_, Iff.rfl⟩
        show x ∈ (assocUpdate b.missing_requirements c' (fun _ => r)).map Prod.fst
          ↔ x ∈ b.missing_requirements.map Prod.fst
        rw [mem_map_fst_assocUpdate_iff]
        constructor
        · rintro (h | rfl)
          · exact h
          · exact absurd rfl hx
        · exact Or.inl
      | skipComponent => exact ⟨Iff.rfl, Iff.rfl, Iff.rfl⟩
      | other e =>
        refine ⟨Iff.rfl, Iff.rfl, ?_⟩
        show x ∈ (assocUpdate b.exceptions c' (fun o => (o.getD []) ++ [e])).map Prod.fst
          ↔ x ∈ b.exceptions.map Prod.fst
        rw [mem_map_fst_assocUpdate_iff]
        constructor
        · rintro (h | rfl)
          · exact h
          · exact absurd rfl hx
        · exact Or.inl

lemma runStep_self (delegates : Comp → Bool) (eval : Comp → Broker → Outcome)
    (b : Broker) (c : Comp)
    (h1 : c ∉ b.keys) (h2 : c ∉ b.missingKeys) (h3 : c ∉ b.exceptionKeys) :
    ((c ∈ (runStep delegates eval b c).keys
        ∧ c ∉ (runStep delegates eval b c).missingKeys
        ∧ c ∉ (runStep delegates eval b c).exceptionKeys)
    ∨ (c ∉ (runStep delegates eval b c).keys
        ∧ c ∈ (runStep delegates eval b c).missingKeys
        ∧ c ∉ (runStep delegates eval b c).exceptionKeys)
    ∨ (c ∉ (runStep delegates eval b c).keys
        ∧ c ∉ (runStep delegates eval b c).missingKeys
        ∧ c ∈ (runStep delegates eval b c).exceptionKeys)
    ∨ (c ∉ (runStep delegates eval b c).keys
        ∧ c ∉ (runStep delegates eval b c).missingKeys
        ∧ c ∉ (runStep delegates eval b c).exceptionKeys)) := by
  cases hg : (!(b.contains c) && delegates c) with
  | false =>
    rw [runStep_eq_of_guard_false delegates eval b c hg]
    exact Or.inr (Or.inr (Or.inr ⟨h1, h2, h3⟩))
  | true =>
    cases hev : eval c b with
    | value v =>
      rw [runStep_eq_of_value delegates eval b c v hg hev]
      refine Or.inl ⟨?_, h2, h3⟩
      show c ∈ (b.instances ++ [(c, v)]).map Prod.fst
      rw [mem_map_fst_append_single]
      exact Or.inr rfl
    | raised ex =>
      rw [runStep_eq_of_raised delegates eval b c ex hg hev]
      cases ex with
      | missingRequirements r =>
        refine Or.inr (Or.inl ⟨h1, ?_, h3⟩)
        show c ∈ (assocUpdate b.missing_requirements c (fun _ => r)).map Prod.fst
        rw [mem_map_fst_assocUpdate_iff]
        exact Or.inr rfl
      | skipComponent => exact Or.inr (Or.inr (Or.inr ⟨h1, h2, h3⟩))
      | other e =>
        refine Or.inr (Or.inr (Or.inl ⟨h1, h2, ?_⟩))
        show c ∈ (assocUpdate b.exceptions c (fun o => (o.getD []) ++ [e])).map Prod.fst
        rw [mem_map_fst_assocUpdate_iff]
        exact Or.inr rfl

lemma foldl_runStep_frame (delegates : Comp → Bool) (eval : Comp → Broker → Outcome)
    (order : List Comp) (b : Broker) (x : Comp) (hx : x ∉ order) :
    ((x ∈ (order.foldl (runStep delegates eval) b).keys ↔ x ∈ b.keys)
    ∧ (x ∈ (order.foldl (runStep delegates eval) b).missingKeys ↔ x ∈ b.missingKeys)
    ∧ (x ∈ (order.foldl (runStep delegates eval) b).exceptionKeys
        ↔ x ∈ b.exceptionKeys)) := by
  induction order generalizing b with
  | nil => exact ⟨Iff.rfl, Iff.rfl, Iff.rfl⟩
  | cons c rest ih =>
    have hxc : x ≠ c := fun h => hx (h ▸ List.mem_cons_self c rest)
    have hxr : x ∉ rest := fun h => hx (List.mem_cons_of_mem c h)
    rw [List.foldl_cons]
    have hstep := runStep_frame delegates eval b c x hxc
    have hrest := ih (runStep delegates eval b c) hxr
    exact ⟨hrest.1.trans hstep.1, hrest.2.1.trans hstep.2.1, hrest.2.2.trans hstep.2.2⟩

/-- C5: after `run(g)` on a fresh broker, every component of `g` is in
exactly one of `instances`, `missing_requirements`, `exceptions`, or was
skipped and is in none of the three. -/
theorem C5_run_partition (delegates : Comp → Bool) (eval : Comp → Broker → Outcome)
    (g : Graph) (hnd : (graphKeys g).Nodup) (br : Broker)
    (hrun : run delegates eval g Broker.empty = .ok br) :
    ∀ c ∈ graphKeys g,
      (c ∈ br.keys ∧ c ∉ br.missingKeys ∧ c ∉ br.exceptionKeys)
      ∨ (c ∉ br.keys ∧ c ∈ br.missingKeys ∧ c ∉ br.exceptionKeys)
      ∨ (c ∉ br.keys ∧ c ∉ br.missingKeys ∧ c ∈ br.exceptionKeys)
      ∨ (c ∉ br.keys ∧ c ∉ br.missingKeys ∧ c ∉ br.exceptionKeys) := by
  intro c hc
  rw [run] at hrun
  cases hord : run_order g Broker.empty with
  | error e =>
    rw [hord] at hrun
    exact Except.noConfusion hrun
  | ok order =>
    rw [hord] at hrun
    injection hrun with h2
    subst h2
    have hcov := toposortRounds_mem g.length g order hord
    have hondup : order.Nodup := toposortRounds_nodup g.length g order hnd hord
    have hco : c ∈ order := (hcov c).mpr hc
    obtain ⟨l1, l2, hsplit⟩ := List.append_of_mem hco
    subst hsplit
    rw [List.nodup_append] at hondup
    have hc1 : c ∉ l1 := fun h => hondup.2.2 h (List.mem_cons_self c l2)
    have hc2 : c ∉ l2 := (List.nodup_cons.mp hondup.2.1).1
    rw [List.foldl_append, List.foldl_cons]
    have hf1 := foldl_runStep_frame delegates eval l1 Broker.empty c hc1
    have e1 : c ∉ (l1.foldl (runStep delegates eval) Broker.empty).keys :=
      fun h => absurd (hf1.1.mp h) (by simp [Broker.empty, Broker.keys])
    have e2 : c ∉ (l1.foldl (runStep delegates eval) Broker.empty).missingKeys :=
      fun h => absurd (hf1.2.1.mp h) (by simp [Broker.empty, Broker.missingKeys])
    have e3 : c ∉ (l1.foldl (runStep delegates eval) Broker.empty).exceptionKeys :=
      fun h => absurd (hf1.2.2.mp h) (by simp [Broker.empty, Broker.exceptionKeys])
    have hstep := runStep_self delegates eval
      (l1.foldl (runStep delegates eval) Broker.empty) c e1 e2 e3
    have hf2 := foldl_runStep_frame delegates eval l2
      (runStep delegates eval (l1.foldl (runStep delegates eval) Broker.empty) c) c hc2
    rcases hstep with ⟨a1, a2, a3⟩ | ⟨a1, a2, a3⟩ | ⟨a1, a2, a3⟩ | ⟨a1, a2, a3⟩
    · exact Or.inl ⟨hf2.1.mpr a1, fun h => a2 (hf2.2.1.mp h), fun h => a3 (hf2.2.2.mp h)⟩
    · exact Or.inr (Or.inl ⟨fun h => a1 (hf2.1.mp h), hf2.2.1.mpr a2,
        fun h => a3 (hf2.2.2.mp h)⟩)
    · exact Or.inr (Or.inr (Or.inl ⟨fun h => a1 (hf2.1.mp h),
        fun h => a2 (hf2.2.1.mp h), hf2.2.2.mpr a3⟩))
    · exact Or.inr (Or.inr (Or.inr ⟨fun h => a1 (hf2.1.mp h),
        fun h => a2 (hf2.2.1.mp h), fun h => a3 (hf2.2.2.mp h)⟩))

/-- Witness for C5: a one-component graph whose component succeeds lands in
`instances` only. -/
theorem C5_witness :
    (0 ∈ Broker.keys ⟨[(0, Val.int 1)], [], [], [0]⟩
      ∧ 0 ∉ Broker.missingKeys ⟨[(0, Val.int 1)], [], [], [0]⟩
      ∧ 0 ∉ Broker.exceptionKeys ⟨[(0, Val.int 1)], [], [], [0]⟩)
    ∨ (0 ∉ Broker.keys ⟨[(0, Val.int 1)], [], [], [0]⟩
      ∧ 0 ∈ Broker.missingKeys ⟨[(0, Val.int 1)], [], [], [0]⟩
      ∧ 0 ∉ Broker.exceptionKeys ⟨[(0, Val.int 1)], [], [], [0]⟩)
    ∨ (0 ∉ Broker.keys ⟨[(0, Val.int 1)], [], [], [0]⟩
      ∧ 0 ∉ Broker.missingKeys ⟨[(0, Val.int 1)], [], [], [0]⟩
      ∧ 0 ∈ Broker.exceptionKeys ⟨[(0, Val.int 1)], [], [], [0]⟩)
    ∨ (0 ∉ Broker.keys ⟨[(0, Val.int 1)], [], [], [0]⟩
      ∧ 0 ∉ Broker.missingKeys ⟨[(0, Val.int 1)], [], [], [0]⟩
      ∧ 0 ∉ Broker.exceptionKeys ⟨[(0, Val.int 1)], [], [], [0]⟩) :=
  C5_run_partition (fun _ => true) (fun _ _ => Outcome.value (Val.int 1))
    [(0, [])] (by decide) ⟨[(0, Val.int 1)], [], [], [0]⟩ rfl 0 (by decide)

lemma runStep_contains (delegates : Comp → Bool) (eval : Comp → Broker → Outcome)
    (b : Broker) (c : Comp) (h : b.contains c = true) :
    runStep delegates eval b c = Broker.fireMark b c := by
  apply runStep_eq_of_guard_false
  rw [h]
  rfl

lemma foldl_runStep_all_contained (delegates : Comp → Bool)
    (eval : Comp → Broker → Outcome) (order : List Comp) (b : Broker)
    (h : ∀ c ∈ order, b.contains c = true) :
    (order.foldl (runStep delegates eval) b).instances = b.instances := by
  induction order generalizing b with
  | nil => rfl
  | cons c rest ih =>
    rw [List.foldl_cons, runStep_contains delegates eval b c (h c (List.mem_cons_self c rest))]
    exact ih (Broker.fireMark b c) (fun x hx => h x (List.mem_cons_of_mem c hx))

/-- C9 counterexample: two independent components `0` and `1`, where `0`
reads the broker and fails unless `1` is present (components are arbitrary
code).  The first run on a fresh broker records an exception for `0` and
`instances = [(1, 2)]`; running again ON THE RETURNED BROKER re-executes
`0` (it is not in `instances`), which now succeeds, so `instances` grows
to `[(1, 2), (0, 1)]` — the second run is NOT a no-op on `instances`. -/
theorem C9_counterexample :
    (run (fun c => c == 0 || c == 1)
        (fun c b => if c == 0 then
            (if b.contains 1 then Outcome.value (Val.int 1) else .raised (.other 7))
          else Outcome.value (Val.int 2))
        [(0, []), (1, [])] Broker.empty).map Broker.instances
      = .ok [(1, Val.int 2)]
    ∧ ((run (fun c => c == 0 || c == 1)
        (fun c b => if c == 0 then
            (if b.contains 1 then Outcome.value (Val.int 1) else .raised (.other 7))
          else Outcome.value (Val.int 2))
        [(0, []), (1, [])] Broker.empty).bind
        (run (fun c => c == 0 || c == 1)
          (fun c b => if c == 0 then
              (if b.contains 1 then Outcome.value (Val.int 1) else .raised (.other 7))
            else Outcome.value (Val.int 2))
          [(0, []), (1, [])])).map Broker.instances
      = .ok [(1, Val.int 2), (0, Val.int 1)]
    ∧ ([(1, Val.int 2), (0, Val.int 1)] : List (Comp × Val)) ≠ [(1, Val.int 2)] :=
  ⟨rfl, rfl, by simp⟩

/-- C9 (amended): re-running `run(g, b)` leaves `b.instances` unchanged
PROVIDED every component of `g` is already a key of `b.instances` (as is
the case after a first run in which every component succeeded); a
component absent from `instances` — one that failed, was skipped or had
missing requirements — is re-executed by the second run. -/
theorem C9_rerun_preserves_instances (delegates : Comp → Bool)
    (eval : Comp → Broker → Outcome) (g : Graph) (b br : Broker)
    (hall : ∀ c ∈ graphKeys g, b.contains c = true)
    (hrun : run delegates eval g b = .ok br) :
    br.instances = b.instances := by
  rw [run] at hrun
  cases hord : run_order g b with
  | error e =>
    rw [hord] at hrun
    exact Except.noConfusion hrun
  | ok order =>
    rw [hord] at hrun
    injection hrun with h2
    subst h2
    exact foldl_runStep_all_contained delegates eval order b
      (fun c hc => hall c ((toposortRounds_mem g.length g order hord c).mp hc))

/-- Witness for C9 (amended): re-running over a broker that already holds
the single component leaves `instances` unchanged. -/
theorem C9_witness :
    (Broker.instances ⟨[(0, Val.int 1)], [], [], [0]⟩)
      = Broker.instances ⟨[(0, Val.int 1)], [], [], []⟩ :=
  C9_rerun_preserves_instances (fun _ => true) (fun _ _ => Outcome.value (Val.int 1))
    [(0, [])] ⟨[(0, Val.int 1)], [], [], []⟩ ⟨[(0, Val.int 1)], [], [], [0]⟩
    (by decide) rfl
